import Mathlib

/-!
# Verification of the Wickelfeatures seq2seq pipeline (`lib.py`, `utility.py`)

Shallow embedding of the pure data-manipulation layer of the repository:
feature encoding of phones (`features`, `code`, `code_verb`), corpus
preprocessing and padding (`preprocessing`), nearest-array phone lookup
(`find_closest_array`), the greedy decoding loop (`decode_sequence`,
`decode_sequences`), cross-validation glue (`kfold`) and data loading
(`load_data`).

Modelling conventions:
* Python strings of phones are `List Char` (iteration over a Python string
  yields its characters); the phone tables (`phones.pickle`,
  `phone_arrays.pickle`, `lookup.pickle`) are data files, so they appear as
  parameters: association lists in the dict's iteration order, looked up with
  `dictGet` (first binding wins, like a Python dict with unique keys).
* Numeric vectors are `List ℚ`; Euclidean distances are compared through
  their squares (`sqDist`), which preserves every comparison the code makes
  because `x ↦ x²` is strictly monotone on nonnegative reals; the sentinel
  `min_dst = 10000` becomes the squared sentinel `10000² = 100000000`.
* Keras / sklearn calls (`pad_sequences`, `StratifiedKFold`) are modelled
  from those libraries' documented behaviour; the neural models (`encoder`,
  `decoder`, `train`) are opaque parameters.
* Fallible Python code (`KeyError` on a missing dict key, shape errors in
  `np.vstack`) returns `Option`; the unbounded `while` loop of
  `decode_sequence` takes explicit fuel, `none` standing for a run that does
  not finish within the fuel.
-/

namespace Wickel

/-- Python dict lookup `d[k]`: first binding of `k` in iteration order,
`none` when the key is absent (`KeyError`). -/
def dictGet {κ α : Type} [DecidableEq κ] (d : List (κ × α)) (k : κ) : Option α :=
  (d.find? (fun e => e.1 = k)).map (fun e => e.2)

/-- Source `lib.features`: the fixed list of the 21 phonetic feature names. -/
def features : List String :=
  ["oclusiva", "nasal", "tepe", "fricativa", "l-aprox", "bilabial", "labiodental",
   "alveolar", "p-alveolar", "palatal", "velar", "glotal", "vozeada", "fechada",
   "m-fechada", "m-aberta", "aberta", "anterior", "posterior", "beg", "end"]

/-- The `phones` table (`Files/phones.pickle`): phone symbol ↦ its set of
features, as an association list. -/
abbrev PhoneTable := List (Char × List String)

/-- Source `lib.code`: the 0/1 feature vector of a single phone, one entry per
feature of `features`, in order; `none` when the phone is not a key of the
table (Python raises `KeyError` on `phones[phone]`). -/
def code (phones : PhoneTable) (phone : Char) : Option (List ℕ) :=
  (dictGet phones phone).map (fun fs =>
    features.map (fun item => if item ∈ fs then 1 else 0))

/-- Source `lib.code_verb`: the matrix whose rows are `code` of each symbol of the
verb, in order; `none` as soon as one symbol is missing from the table. -/
def code_verb (phones : PhoneTable) : List Char → Option (List (List ℕ))
  | [] => some []
  | c :: rest =>
    match code phones c, code_verb phones rest with
    | some v, some m => some (v :: m)
    | _, _ => none

/-- Squared Euclidean distance of two vectors (`scipy.spatial.distance.euclidean`
composed with squaring; only comparisons of distances matter in the code). -/
def sqDist (x y : List ℚ) : ℚ :=
  (x.zipWith (fun a b => (a - b) ^ 2) y).sum

/-- The loop of `lib.find_closest_array`: fold over the `phone_arrays` dict
carrying the best squared distance so far and the current candidate; a new
entry wins only when its distance is strictly smaller. -/
def fcaLoop (predicted : List ℚ) :
    List (List Char × List ℚ) → ℚ → List Char → List Char
  | [], _, cand => cand
  | (phone, arr) :: rest, minsq, cand =>
    let d := sqDist predicted arr
    if d < minsq then fcaLoop predicted rest d phone
    else fcaLoop predicted rest minsq cand

/-- Source `lib.find_closest_array`: scan the `phone_arrays` table for the stored
vector strictly closest to `predicted`, starting from the sentinel
`min_dst = 10000` (squared: `100000000`) and the empty candidate `''`. -/
def find_closest_array (phone_arrays : List (List Char × List ℚ))
    (predicted : List ℚ) : List Char :=
  fcaLoop predicted phone_arrays 100000000 []

end Wickel

namespace Wickel

/-- When no entry of the remaining table beats the current bound, the loop
keeps the incoming candidate. -/
theorem fcaLoop_no_update (predicted : List ℚ) :
    ∀ (l : List (List Char × List ℚ)) (m : ℚ) (c : List Char),
      (∀ e ∈ l, ¬ sqDist predicted e.2 < m) →
      fcaLoop predicted l m c = c := by
  intro l
  induction l with
  | nil => intro m c _; rfl
  | cons e rest ih =>
    intro m c h
    obtain ⟨p, a⟩ := e
    have h0 : ¬ sqDist predicted a < m := h ⟨p, a⟩ (List.mem_cons_self _ _)
    simp only [fcaLoop, if_neg h0]
    exact ih m c (fun e he => h e (List.mem_cons_of_mem _ he))

/-- Main invariant of the scan: as soon as some remaining entry is strictly
below the current bound, the loop returns the first entry realising the
minimum squared distance of the remaining table. -/
theorem fcaLoop_min (predicted : List ℚ) :
    ∀ (l : List (List Char × List ℚ)) (m : ℚ) (c : List Char),
      (∃ e ∈ l, sqDist predicted e.2 < m) →
      ∃ j : Fin l.length,
        fcaLoop predicted l m c = (l.get j).1 ∧
        sqDist predicted (l.get j).2 < m ∧
        (∀ i : Fin l.length,
          sqDist predicted (l.get j).2 ≤ sqDist predicted (l.get i).2) ∧
        (∀ i : Fin l.length, (i : ℕ) < (j : ℕ) →
          sqDist predicted (l.get j).2 < sqDist predicted (l.get i).2) := by
  intro l
  induction l with
  | nil => intro m c h; simp at h
  | cons e rest ih =>
    intro m c h
    obtain ⟨p, a⟩ := e
    by_cases h0 : sqDist predicted a < m
    · simp only [fcaLoop, if_pos h0]
      by_cases h1 : ∃ e ∈ rest, sqDist predicted e.2 < sqDist predicted a
      · obtain ⟨j', hj1, hj2, hj3, hj4⟩ := ih (sqDist predicted a) p h1
        refine ⟨j'.succ, ?_, ?_, ?_, ?_⟩
        · simpa using hj1
        · exact lt_trans hj2 h0
        · intro i
          rcases Fin.eq_zero_or_eq_succ i with hi | ⟨i', hi⟩
          · subst hi; exact le_of_lt hj2
          · subst hi; simpa using hj3 i'
        · intro i hlt
          rcases Fin.eq_zero_or_eq_succ i with hi | ⟨i', hi⟩
          · subst hi; simpa using hj2
          · subst hi
            simp only [Fin.val_succ, Nat.succ_lt_succ_iff] at hlt
            simpa using hj4 i' hlt
      · push_neg at h1
        refine ⟨⟨0, Nat.succ_pos _⟩, ?_, h0, ?_, ?_⟩
        · exact fcaLoop_no_update predicted rest (sqDist predicted a) p
            (fun e he => not_lt.mpr (h1 e he))
        · intro i
          rcases Fin.eq_zero_or_eq_succ i with hi | ⟨i', hi⟩
          · subst hi; simp
          · subst hi
            simpa using h1 (rest.get i') (rest.get_mem _ _)
        · intro i hlt
          simp at hlt
    · simp only [fcaLoop, if_neg h0]
      have h1 : ∃ e ∈ rest, sqDist predicted e.2 < m := by
        obtain ⟨e, he, hlt⟩ := h
        rcases List.mem_cons.mp he with rfl | hmem
        · exact absurd hlt h0
        · exact ⟨e, hmem, hlt⟩
      obtain ⟨j', hj1, hj2, hj3, hj4⟩ := ih m c h1
      have hb : ¬ sqDist predicted a < m := h0
      refine ⟨j'.succ, ?_, ?_, ?_, ?_⟩
      · simpa using hj1
      · simpa using hj2
      · intro i
        rcases Fin.eq_zero_or_eq_succ i with hi | ⟨i', hi⟩
        · subst hi
          have : m ≤ sqDist predicted a := not_lt.mp hb
          simpa using le_of_lt (lt_of_lt_of_le hj2 this)
        · subst hi; simpa using hj3 i'
      · intro i hlt
        rcases Fin.eq_zero_or_eq_succ i with hi | ⟨i', hi⟩
        · subst hi
          have : m ≤ sqDist predicted a := not_lt.mp hb
          simpa using lt_of_lt_of_le hj2 this
        · subst hi
          simp only [Fin.val_succ, Nat.succ_lt_succ_iff] at hlt
          simpa using hj4 i' hlt

end Wickel

namespace Wickel

/-- C1 counterexample: with a one-entry table whose stored vector is the zero
vector and a predicted vector at Euclidean distance exactly 10000, the scan
never beats the sentinel `min_dst = 10000`, so the initial candidate `''` is
returned instead of the table's (unique, hence minimum-distance) phone `'a'`. -/
theorem find_closest_array_sentinel_cex :
    find_closest_array [(['a'], List.replicate 21 (0 : ℚ))]
        ((10000 : ℚ) :: List.replicate 20 0) = [] ∧
      (['a'] : List Char) ≠ [] := by
  constructor
  · show fcaLoop _ _ _ _ = _
    have hz : sqDist ((10000 : ℚ) :: List.replicate 20 0)
        (List.replicate 21 (0 : ℚ)) = 100000000 := by
      show (((10000 : ℚ) :: List.replicate 20 0).zipWith _ (List.replicate 21 (0 : ℚ))).sum
        = 100000000
      rw [show (List.replicate 21 (0 : ℚ)) = 0 :: List.replicate 20 0 from rfl]
      rw [List.zipWith_cons_cons, List.zipWith_replicate]
      simp
      norm_num
    simp only [fcaLoop, hz]
    norm_num [fcaLoop]
  · simp

/-- C1 (amended): whenever some stored vector of the `phone_arrays` table lies
at Euclidean distance strictly below the sentinel 10000 from the predicted
vector (squared distance `< 100000000`), `find_closest_array` returns the phone
of the first table entry attaining the minimum distance: its distance is a
lower bound of every entry's distance, and every strictly earlier entry has a
strictly larger distance. -/
theorem find_closest_array_min (phone_arrays : List (List Char × List ℚ))
    (predicted : List ℚ)
    (h : ∃ e ∈ phone_arrays, sqDist predicted e.2 < 100000000) :
    ∃ j : Fin phone_arrays.length,
      find_closest_array phone_arrays predicted = (phone_arrays.get j).1 ∧
      (∀ i : Fin phone_arrays.length,
        sqDist predicted (phone_arrays.get j).2 ≤
          sqDist predicted (phone_arrays.get i).2) ∧
      (∀ i : Fin phone_arrays.length, (i : ℕ) < (j : ℕ) →
        sqDist predicted (phone_arrays.get j).2 <
          sqDist predicted (phone_arrays.get i).2) := by
  obtain ⟨j, h1, _, h3, h4⟩ := fcaLoop_min predicted phone_arrays 100000000 [] h
  exact ⟨j, h1, h3, h4⟩

/-- Witness for C1: on the table `[('a', [0]), ('b', [3])]` and the predicted
vector `[1]`, the distances are 1 and 2, both below the sentinel, and the
closest phone `'a'` is returned. -/
theorem find_closest_array_min_witness :
    (∃ e ∈ [((['a'] : List Char), [(0 : ℚ)]), (['b'], [3])],
        sqDist [1] e.2 < 100000000) ∧
      ∃ j : Fin ([((['a'] : List Char), [(0 : ℚ)]), (['b'], [3])]).length,
        find_closest_array [((['a'] : List Char), [(0 : ℚ)]), (['b'], [3])] [1] =
            (([((['a'] : List Char), [(0 : ℚ)]), (['b'], [3])]).get j).1 ∧
          (∀ i, sqDist [1] (([((['a'] : List Char), [(0 : ℚ)]), (['b'], [3])]).get j).2 ≤
            sqDist [1] (([((['a'] : List Char), [(0 : ℚ)]), (['b'], [3])]).get i).2) ∧
          (∀ i : Fin ([((['a'] : List Char), [(0 : ℚ)]), (['b'], [3])]).length,
            (i : ℕ) < (j : ℕ) →
            sqDist [1] (([((['a'] : List Char), [(0 : ℚ)]), (['b'], [3])]).get j).2 <
              sqDist [1] (([((['a'] : List Char), [(0 : ℚ)]), (['b'], [3])]).get i).2) :=
  ⟨⟨(['a'], [0]), by simp, by norm_num [sqDist]⟩,
    find_closest_array_min _ _ ⟨(['a'], [0]), by simp, by norm_num [sqDist]⟩⟩

end Wickel

namespace Wickel

/-- C2: for a phone that is a key of the `phones` table with feature set `fs`,
`code` returns a vector of exactly 21 entries, each 0 or 1, whose `i`-th entry
is 1 exactly when the `i`-th feature of `features` belongs to `fs`. -/
theorem code_feature_vector (phones : PhoneTable) (p : Char) (fs : List String)
    (h : dictGet phones p = some fs) :
    ∃ v, code phones p = some v ∧ v.length = 21 ∧
      (∀ x ∈ v, x = 0 ∨ x = 1) ∧
      (∀ i, i < 21 → (v.getD i 0 = 1 ↔ features.getD i ("") ∈ fs)) := by
  refine ⟨features.map (fun item => if item ∈ fs then 1 else 0), ?_, ?_, ?_, ?_⟩
  · simp [code, h]
  · rfl
  · intro x hx
    simp only [List.mem_map] at hx
    obtain ⟨a, _, rfl⟩ := hx
    by_cases hmem : a ∈ fs <;> simp [hmem]
  · intro i hi
    have hlen : features.length = 21 := rfl
    have hi' : i < features.length := by rw [hlen]; exact hi
    rw [List.getD_eq_getElem?_getD, List.getD_eq_getElem?_getD,
      List.getElem?_map, List.getElem?_eq_getElem hi']
    by_cases hmem : features[i] ∈ fs <;> simp [hmem]

/-- Witness for C2: the phone `'p'` with features `{oclusiva, bilabial}`. -/
theorem code_feature_vector_witness :
    dictGet [('p', ["oclusiva", "bilabial"])] 'p' = some ["oclusiva", "bilabial"] ∧
      ∃ v, code [('p', ["oclusiva", "bilabial"])] 'p' = some v ∧ v.length = 21 ∧
        (∀ x ∈ v, x = 0 ∨ x = 1) ∧
        (∀ i, i < 21 → (v.getD i 0 = 1 ↔ features.getD i ("") ∈ ["oclusiva", "bilabial"])) :=
  ⟨by simp [dictGet],
    code_feature_vector _ 'p' ["oclusiva", "bilabial"] (by simp [dictGet])⟩

/-- C4: on a verb all of whose symbols are keys of the `phones` table,
`code_verb` returns one row per symbol, in order, the `i`-th row being `code`
of the verb's `i`-th symbol. -/
theorem code_verb_rows (phones : PhoneTable) (verb : List Char)
    (h : ∀ c ∈ verb, (dictGet phones c).isSome) :
    ∃ m, code_verb phones verb = some m ∧ m.length = verb.length ∧
      ∀ i : Fin verb.length, m[(i : ℕ)]? = code phones (verb.get i) := by
  induction verb with
  | nil => exact ⟨[], rfl, rfl, fun i => absurd i.2 (by simp)⟩
  | cons c rest ih =>
    have hc : (dictGet phones c).isSome := h c (List.mem_cons_self _ _)
    obtain ⟨fs, hfs⟩ := Option.isSome_iff_exists.mp hc
    obtain ⟨m, hm, hlen, hrows⟩ := ih (fun c hc => h c (List.mem_cons_of_mem _ hc))
    refine ⟨(features.map (fun item => if item ∈ fs then 1 else 0)) :: m, ?_, ?_, ?_⟩
    · show (match code phones c, code_verb phones rest with
        | some v, some m => some (v :: m)
        | _, _ => none) = _
      rw [hm, show code phones c = some (features.map (fun item => if item ∈ fs then 1 else 0))
        from by simp [code, hfs]]
    · simpa using hlen
    · intro i
      rcases Fin.eq_zero_or_eq_succ i with hi | ⟨i', hi⟩
      · subst hi
        simp [code, hfs]
      · subst hi
        simpa using hrows i'

/-- Witness for C4: the verb "pa" over a two-phone table. -/
theorem code_verb_rows_witness :
    (∀ c ∈ ['p', 'a'],
        (dictGet [('p', ["oclusiva", "bilabial"]), ('a', ["aberta"])] c).isSome) ∧
      ∃ m, code_verb [('p', ["oclusiva", "bilabial"]), ('a', ["aberta"])] ['p', 'a'] = some m ∧
        m.length = (['p', 'a'] : List Char).length ∧
        ∀ i : Fin (['p', 'a'] : List Char).length,
          m[(i : ℕ)]? = code [('p', ["oclusiva", "bilabial"]), ('a', ["aberta"])]
            ((['p', 'a'] : List Char).get i) :=
  ⟨by intro c hc; fin_cases hc <;> simp [dictGet],
    code_verb_rows _ ['p', 'a'] (by intro c hc; fin_cases hc <;> simp [dictGet])⟩

end Wickel

namespace Wickel

/-- The all-zero padding row `np.zeros(21)` (cast to the integer dtype that
`pad_sequences` uses for 0/1 feature rows). -/
def zeros21 : List ℕ := List.replicate 21 0

/-- Length of the longest sequence of a collection (the `maxlen=None` default
of `keras pad_sequences` computes the maximum sequence length). -/
def maxLen {α : Type} (xs : List (List α)) : ℕ :=
  xs.foldr (fun x m => max x.length m) 0

/-- Pre-padding of one sequence to length `m` (default `padding='pre'`). -/
def pad_pre (m : ℕ) (x : List (List ℕ)) : List (List ℕ) :=
  List.replicate (m - x.length) zeros21 ++ x

/-- Post-padding of one sequence to length `m` (`padding='post'`). -/
def pad_post (m : ℕ) (x : List (List ℕ)) : List (List ℕ) :=
  x ++ List.replicate (m - x.length) zeros21

/-- Library call `keras.preprocessing.sequence.pad_sequences(xs, value=np.zeros(21))`,
modelled from the keras contract: with `maxlen=None` every sequence is padded
at the beginning with the padding value up to the longest sequence's length. -/
def pad_sequences_pre (xs : List (List (List ℕ))) : List (List (List ℕ)) :=
  xs.map (pad_pre (maxLen xs))

/-- Library call `pad_sequences(xs, value=np.zeros(21), padding="post")`, modelled from the
keras contract: padding rows appended at the end instead. -/
def pad_sequences_post (xs : List (List (List ℕ))) : List (List (List ℕ)) :=
  xs.map (pad_post (maxLen xs))

/-- Numpy call `np.vstack((x[1:], np.zeros(21)))` applied to a coded verb: drop the first
row and append one zero row; `none` for a 0-row input, where `np.vstack`
raises a shape-mismatch error (`(1,0)` against `(1,21)`). -/
def vstack_shift (x : List (List ℕ)) : Option (List (List ℕ)) :=
  match x with
  | [] => none
  | _ :: _ => some (x.drop 1 ++ [zeros21])

/-- Library call `pandas.Series.apply` with a fallible function: the whole traversal fails
as soon as one element raises. -/
def optList {α β : Type} (f : α → Option β) : List α → Option (List β)
  | [] => some []
  | a :: rest =>
    match f a, optList f rest with
    | some b, some m => some (b :: m)
    | _, _ => none

/-- Arithmetic mean of a list of rationals (`np.mean` along an axis). -/
def meanQ (l : List ℚ) : ℚ := l.sum / l.length

/-- Numpy expression `padded.mean(axis=0)` on an `N × T × 21` tensor: the `T × 21` matrix of
per-sample means. -/
def tensorMean0 (xs : List (List (List ℕ))) : List (List ℚ) :=
  (List.range (maxLen xs)).map (fun t =>
    (List.range 21).map (fun f =>
      meanQ (xs.map (fun s => ((s.getD t []).getD f 0 : ℚ)))))

/-- Numpy expression `m.mean(axis=0)` on a `T × 21` matrix: the 21-vector of column means. -/
def matMean0 (m : List (List ℚ)) : List ℚ :=
  (List.range 21).map (fun f => meanQ (m.map (fun row => row.getD f 0)))

/-- Source expression `omega = 2*padded_out.mean(axis=0).mean(axis=0) + 0.001`. -/
def omegaVec (padded : List (List (List ℕ))) : List ℚ :=
  (matMean0 (tensorMean0 padded)).map (fun x => 2 * x + 1 / 1000)

/-- The six values returned by `lib.preprocessing`. -/
structure PreOut where
  coded_in : List (List (List ℕ))
  coded_out : List (List (List ℕ))
  padded_in : List (List (List ℕ))
  padded_out : List (List (List ℕ))
  padded_out_target : List (List (List ℕ))
  omega : List ℚ

/-- Source `lib.preprocessing`: code both corpus columns, build the shifted decoder
targets, pad inputs at the front and outputs/targets at the back, and compute
`omega`; `none` when any phone is missing from the table or some output verb
is empty (the `np.vstack` failure). -/
def preprocessing (phones : PhoneTable) (corpus : List (List Char × List Char)) :
    Option PreOut :=
  match optList (fun r => code_verb phones r.1) corpus,
      optList (fun r => code_verb phones r.2) corpus with
  | some ci, some co =>
    match optList vstack_shift co with
    | some ct =>
      some { coded_in := ci, coded_out := co,
             padded_in := pad_sequences_pre ci,
             padded_out := pad_sequences_post co,
             padded_out_target := pad_sequences_post ct,
             omega := omegaVec (pad_sequences_post co) }
    | none => none
  | _, _ => none

end Wickel

namespace Wickel

/-- Every sequence of a collection is at most as long as the longest one. -/
theorem length_le_maxLen {α : Type} (xs : List (List α)) :
    ∀ x ∈ xs, x.length ≤ maxLen xs := by
  induction xs with
  | nil => intro x hx; simp at hx
  | cons a rest ih =>
    intro x hx
    rcases List.mem_cons.mp hx with rfl | hmem
    · exact le_max_left _ _
    · exact le_trans (ih x hmem) (le_max_right _ _)

/-- Shape of one pre-padded sequence: total length `maxLen`, an all-zeros
prefix, and the original rows as the suffix. -/
theorem pad_sequences_pre_spec (xs : List (List (List ℕ))) (j : Fin xs.length) :
    ∃ p, (pad_sequences_pre xs)[(j : ℕ)]? = some p ∧
      p.length = maxLen xs ∧
      (∀ r ∈ p.take (maxLen xs - (xs.get j).length), r = zeros21) ∧
      p.drop (maxLen xs - (xs.get j).length) = xs.get j := by
  have hle : (xs.get j).length ≤ maxLen xs :=
    length_le_maxLen xs _ (xs.get_mem _ _)
  refine ⟨pad_pre (maxLen xs) (xs.get j), ?_, ?_, ?_, ?_⟩
  · rw [pad_sequences_pre, List.getElem?_map, List.getElem?_eq_getElem j.2]
    rfl
  · rw [pad_pre, List.length_append, List.length_replicate]
    omega
  · intro r hr
    rw [pad_pre, List.take_left' (List.length_replicate _ _)] at hr
    exact List.eq_of_mem_replicate hr
  · rw [pad_pre, List.drop_left' (List.length_replicate _ _)]

/-- Shape of one post-padded sequence: the original rows first, then an
all-zeros suffix, total length `maxLen`. -/
theorem pad_sequences_post_spec (xs : List (List (List ℕ))) (j : Fin xs.length) :
    ∃ p, (pad_sequences_post xs)[(j : ℕ)]? = some p ∧
      p.length = maxLen xs ∧
      (∀ r ∈ p.drop (xs.get j).length, r = zeros21) ∧
      p.take (xs.get j).length = xs.get j := by
  have hle : (xs.get j).length ≤ maxLen xs :=
    length_le_maxLen xs _ (xs.get_mem _ _)
  refine ⟨pad_post (maxLen xs) (xs.get j), ?_, ?_, ?_, ?_⟩
  · rw [pad_sequences_post, List.getElem?_map, List.getElem?_eq_getElem j.2]
    rfl
  · rw [pad_post, List.length_append, List.length_replicate]
    omega
  · intro r hr
    rw [pad_post, List.drop_left] at hr
    exact List.eq_of_mem_replicate hr
  · rw [pad_post, List.take_left]

/-- Inversion of `preprocessing`: a successful run determines every component
from the two coded columns. -/
theorem preprocessing_inv (phones : PhoneTable)
    (corpus : List (List Char × List Char)) (pre : PreOut)
    (h : preprocessing phones corpus = some pre) :
    optList (fun r => code_verb phones r.1) corpus = some pre.coded_in ∧
    optList (fun r => code_verb phones r.2) corpus = some pre.coded_out ∧
    ∃ ct, optList vstack_shift pre.coded_out = some ct ∧
      pre.padded_in = pad_sequences_pre pre.coded_in ∧
      pre.padded_out = pad_sequences_post pre.coded_out ∧
      pre.padded_out_target = pad_sequences_post ct ∧
      pre.omega = omegaVec (pad_sequences_post pre.coded_out) := by
  unfold preprocessing at h
  split at h
  case _ ci co hci hco =>
    split at h
    case _ ct hct =>
      obtain rfl : _ = pre := Option.some.inj h
      exact ⟨hci, hco, ct, hct, rfl, rfl, rfl, rfl⟩
    case _ => exact absurd h (by simp)
  case _ => exact absurd h (by simp)

/-- A successful fallible traversal succeeds on every element. -/
theorem optList_isSome {α β : Type} (f : α → Option β) :
    ∀ (l : List α) (m : List β), optList f l = some m → ∀ a ∈ l, (f a).isSome := by
  intro l
  induction l with
  | nil => intro m _ a ha; simp at ha
  | cons x rest ih =>
    intro m h a ha
    unfold optList at h
    cases hx : f x with
    | none => rw [hx] at h; simp at h
    | some b =>
      rw [hx] at h
      cases hr : optList f rest with
      | none => rw [hr] at h; simp at h
      | some m' =>
        rcases List.mem_cons.mp ha with rfl | hmem
        · simp [hx]
        · exact ih m' hr a hmem

end Wickel

namespace Wickel

/-- C5: every coded input sequence is padded at the beginning, and every coded
output and output-target sequence at the end, with all-zero 21-dimensional
rows up to the length of the longest sequence of the respective collection,
the non-padding rows being the original coded rows in order. -/
theorem preprocessing_padding (phones : PhoneTable)
    (corpus : List (List Char × List Char)) (pre : PreOut)
    (h : preprocessing phones corpus = some pre) :
    (∀ j : Fin pre.coded_in.length, ∃ p, pre.padded_in[(j : ℕ)]? = some p ∧
        p.length = maxLen pre.coded_in ∧
        (∀ r ∈ p.take (maxLen pre.coded_in - (pre.coded_in.get j).length), r = zeros21) ∧
        p.drop (maxLen pre.coded_in - (pre.coded_in.get j).length) = pre.coded_in.get j) ∧
    (∀ j : Fin pre.coded_out.length, ∃ p, pre.padded_out[(j : ℕ)]? = some p ∧
        p.length = maxLen pre.coded_out ∧
        (∀ r ∈ p.drop (pre.coded_out.get j).length, r = zeros21) ∧
        p.take (pre.coded_out.get j).length = pre.coded_out.get j) ∧
    (∃ ct, optList vstack_shift pre.coded_out = some ct ∧
      ∀ j : Fin ct.length, ∃ p, pre.padded_out_target[(j : ℕ)]? = some p ∧
        p.length = maxLen ct ∧
        (∀ r ∈ p.drop (ct.get j).length, r = zeros21) ∧
        p.take (ct.get j).length = ct.get j) := by
  obtain ⟨-, -, ct, hct, hpi, hpo, hpt, -⟩ := preprocessing_inv _ _ _ h
  refine ⟨?_, ?_, ct, hct, ?_⟩
  · intro j; rw [hpi]; exact pad_sequences_pre_spec _ j
  · intro j; rw [hpo]; exact pad_sequences_post_spec _ j
  · intro j; rw [hpt]; exact pad_sequences_post_spec _ j

/-- A one-row corpus on two featureless phones, and the value `preprocessing`
takes on it; used to instantiate the preprocessing theorems. -/
def preW : PreOut :=
  { coded_in := [[zeros21]], coded_out := [[zeros21]],
    padded_in := [[zeros21]], padded_out := [[zeros21]],
    padded_out_target := [[zeros21]],
    omega := List.replicate 21 (1 / 1000 : ℚ) }

set_option maxHeartbeats 1000000 in
/-- Witness for C5: the corpus `[("p", "q")]` over featureless phones. -/
theorem preprocessing_padding_witness :
    (preprocessing [('p', []), ('q', [])] [(['p'], ['q'])] = some preW) ∧
    ((∀ j : Fin preW.coded_in.length, ∃ p, preW.padded_in[(j : ℕ)]? = some p ∧
        p.length = maxLen preW.coded_in ∧
        (∀ r ∈ p.take (maxLen preW.coded_in - (preW.coded_in.get j).length), r = zeros21) ∧
        p.drop (maxLen preW.coded_in - (preW.coded_in.get j).length) = preW.coded_in.get j) ∧
      (∀ j : Fin preW.coded_out.length, ∃ p, preW.padded_out[(j : ℕ)]? = some p ∧
        p.length = maxLen preW.coded_out ∧
        (∀ r ∈ p.drop (preW.coded_out.get j).length, r = zeros21) ∧
        p.take (preW.coded_out.get j).length = preW.coded_out.get j) ∧
      (∃ ct, optList vstack_shift preW.coded_out = some ct ∧
        ∀ j : Fin ct.length, ∃ p, preW.padded_out_target[(j : ℕ)]? = some p ∧
          p.length = maxLen ct ∧
          (∀ r ∈ p.drop (ct.get j).length, r = zeros21) ∧
          p.take (ct.get j).length = ct.get j)) :=
  ⟨by simp [preprocessing, optList, code_verb, code, dictGet, features, vstack_shift,
      pad_sequences_pre, pad_sequences_post, pad_pre, pad_post, maxLen, zeros21,
      omegaVec, tensorMean0, matMean0, meanQ, preW, List.range_succ],
    preprocessing_padding [('p', []), ('q', [])] [(['p'], ['q'])] preW
      (by simp [preprocessing, optList, code_verb, code, dictGet, features, vstack_shift,
        pad_sequences_pre, pad_sequences_post, pad_pre, pad_post, maxLen, zeros21,
        omegaVec, tensorMean0, matMean0, meanQ, preW, List.range_succ])⟩

/-- C6: inside a successful `preprocessing` run, each decoder target matrix is
its output matrix shifted one row earlier with a single all-zero row appended:
same number of rows, row `i` of the target is row `i+1` of the output, and the
last target row is the zero row. -/
theorem preprocessing_target_shift (phones : PhoneTable)
    (corpus : List (List Char × List Char)) (pre : PreOut)
    (h : preprocessing phones corpus = some pre) :
    ∀ j : Fin pre.coded_out.length, ∃ t,
      vstack_shift (pre.coded_out.get j) = some t ∧
      t = (pre.coded_out.get j).drop 1 ++ [zeros21] ∧
      t.length = (pre.coded_out.get j).length ∧
      (∀ i : ℕ, i + 1 < (pre.coded_out.get j).length →
        t[i]? = (pre.coded_out.get j)[i + 1]?) ∧
      t[(pre.coded_out.get j).length - 1]? = some zeros21 := by
  obtain ⟨-, -, ct, hct, -⟩ := preprocessing_inv _ _ _ h
  intro j
  have hsome : (vstack_shift (pre.coded_out.get j)).isSome :=
    optList_isSome _ _ _ hct _ (pre.coded_out.get_mem _ _)
  cases hx : pre.coded_out.get j with
  | nil => rw [hx] at hsome; simp [vstack_shift] at hsome
  | cons r rest =>
    refine ⟨rest ++ [zeros21], rfl, by simp, by simp, ?_, ?_⟩
    · intro i hi
      have hi' : i < rest.length := by simp at hi; omega
      rw [List.getElem?_append_left hi', List.getElem?_cons_succ]
    · have : (r :: rest).length - 1 = rest.length := by simp
      rw [this, List.getElem?_append_right (le_refl _)]
      simp

set_option maxHeartbeats 1000000 in
/-- Witness for C6: the same one-row corpus over featureless phones. -/
theorem preprocessing_target_shift_witness :
    (preprocessing [('p', []), ('q', [])] [(['p'], ['q'])] = some preW) ∧
    (∀ j : Fin preW.coded_out.length, ∃ t,
      vstack_shift (preW.coded_out.get j) = some t ∧
      t = (preW.coded_out.get j).drop 1 ++ [zeros21] ∧
      t.length = (preW.coded_out.get j).length ∧
      (∀ i : ℕ, i + 1 < (preW.coded_out.get j).length →
        t[i]? = (preW.coded_out.get j)[i + 1]?) ∧
      t[(preW.coded_out.get j).length - 1]? = some zeros21) :=
  ⟨by simp [preprocessing, optList, code_verb, code, dictGet, features, vstack_shift,
      pad_sequences_pre, pad_sequences_post, pad_pre, pad_post, maxLen, zeros21,
      omegaVec, tensorMean0, matMean0, meanQ, preW, List.range_succ],
    preprocessing_target_shift [('p', []), ('q', [])] [(['p'], ['q'])] preW
      (by simp [preprocessing, optList, code_verb, code, dictGet, features, vstack_shift,
        pad_sequences_pre, pad_sequences_post, pad_pre, pad_post, maxLen, zeros21,
        omegaVec, tensorMean0, matMean0, meanQ, preW, List.range_succ])⟩

end Wickel

namespace Wickel

/-- The environment of `decode_sequence`: the `phone_arrays` and `lookup`
data tables, the decoder network (`decoder.predict` seen as a function from
the current target vector and states to the last-step output vector and the
new states), the division vector `omega` and the `renormalize` flag. -/
structure DecodeCfg (St : Type) where
  phone_arrays : List (List Char × List ℚ)
  lookup : List (List Char × List ℚ)
  decoder : List ℚ → St → List ℚ × St
  omega : List ℚ
  renormalize : Bool

/-- Elementwise division `output_phones[0, -1, :] / omega` (numpy broadcasting
over the 21 feature entries). -/
def divVec (x y : List ℚ) : List ℚ := x.zipWith (· / ·) y

/-- Sampling one phone from a raw decoder output: nearest stored array of the
renormalised output when `renormalize` is set, of the raw output otherwise. -/
def samplePhone {St : Type} (cfg : DecodeCfg St) (out : List ℚ) : List Char :=
  if cfg.renormalize then find_closest_array cfg.phone_arrays (divVec out cfg.omega)
  else find_closest_array cfg.phone_arrays out

/-- The `while not stop_condition` loop of `lib.decode_sequence`, with
explicit fuel. One iteration predicts, records the raw output in `fts`,
samples a phone, looks up its vector (`none` models the Python `KeyError`),
appends the phone to the decoded verb and stops when the sampled phone is
`'#'` or the decoded verb is longer than `max_decoder_seq_length = 13`;
otherwise it recurses on the sampled vector and the new states. -/
def decodeLoop {St : Type} (cfg : DecodeCfg St) :
    ℕ → List ℚ → St → List (List ℚ) → List Char → Option (List (List ℚ) × List Char)
  | 0, _, _, _, _ => none
  | fuel + 1, target, st, fts, decoded =>
    let out := (cfg.decoder target st).1
    let st' := (cfg.decoder target st).2
    let fts' := fts ++ [out]
    let sampled := samplePhone cfg out
    match dictGet cfg.lookup sampled with
    | none => none
    | some vec =>
      let decoded' := decoded ++ sampled
      if sampled = ['#'] ∨ decoded'.length > 13 then some (fts', decoded')
      else decodeLoop cfg fuel vec st' fts' decoded'

/-- Source `lib.decode_sequence`: start from the target `lookup['#']` and the states
the encoder computes on the input, run the sampling loop, and return the
recorded raw outputs together with the decoded verb stripped of its final
character (`decoded_verb[:-1]`). -/
def decode_sequence {ι St : Type} (cfg : DecodeCfg St) (encoder : ι → St)
    (fuel : ℕ) (input_seq : ι) : Option (List (List ℚ) × List Char) :=
  match dictGet cfg.lookup ['#'] with
  | none => none
  | some start =>
    (decodeLoop cfg fuel start (encoder input_seq) [] []).map
      (fun r => (r.1, r.2.dropLast))

/-- Source `lib.decode_sequences` on a 3-dimensional batch: decode every sequence of
the batch with the same encoder, decoder, omega and renormalize, and collect
the per-sequence feature lists and verbs (`zip(*[decode_sequence(s, ...) for
s in seq])`); one failing decode fails the batch. -/
def decode_sequences {ι St : Type} (cfg : DecodeCfg St) (encoder : ι → St)
    (fuel : ℕ) (seq : List ι) : Option (List (List (List ℚ)) × List (List Char)) :=
  (optList (decode_sequence cfg encoder fuel) seq).map
    (fun rs => (rs.map Prod.fst, rs.map Prod.snd))

end Wickel

namespace Wickel

/-- One unfolding of the sampling loop at positive fuel. -/
theorem decodeLoop_succ {St : Type} (cfg : DecodeCfg St) (fuel : ℕ)
    (target : List ℚ) (st : St) (fts : List (List ℚ)) (decoded : List Char) :
    decodeLoop cfg (fuel + 1) target st fts decoded =
      match dictGet cfg.lookup (samplePhone cfg ((cfg.decoder target st).1)) with
      | none => none
      | some vec =>
        if samplePhone cfg ((cfg.decoder target st).1) = ['#'] ∨
            (decoded ++ samplePhone cfg ((cfg.decoder target st).1)).length > 13 then
          some (fts ++ [(cfg.decoder target st).1],
            decoded ++ samplePhone cfg ((cfg.decoder target st).1))
        else decodeLoop cfg fuel vec ((cfg.decoder target st).2)
          (fts ++ [(cfg.decoder target st).1])
          (decoded ++ samplePhone cfg ((cfg.decoder target st).1)) := rfl

/-- Invariant of the sampling loop: when every sampled phone is a single
character and every sampled phone is a key of `lookup`, a run started on a
decoded verb of at most 13 characters with enough fuel finishes, grows the
verb to at most 14 characters, records one `fts` entry per iteration, and
its last character is `'#'` unless the verb reached exactly 14 characters. -/
theorem decodeLoop_term {St : Type} (cfg : DecodeCfg St)
    (H1 : ∀ t s, (samplePhone cfg ((cfg.decoder t s).1)).length = 1)
    (H2 : ∀ t s, (dictGet cfg.lookup (samplePhone cfg ((cfg.decoder t s).1))).isSome) :
    ∀ (fuel : ℕ) (target : List ℚ) (st : St) (fts : List (List ℚ))
      (decoded : List Char),
      decoded.length ≤ 13 → 14 ≤ decoded.length + fuel →
      ∃ fts2 d, decodeLoop cfg fuel target st fts decoded = some (fts2, d) ∧
        d.length ≤ 14 ∧ decoded.length < d.length ∧
        fts2.length + decoded.length = fts.length + d.length ∧
        ∃ c, d.getLast? = some c ∧ (c ≠ '#' → d.length = 14) := by
  intro fuel
  induction fuel with
  | zero => intro target st fts decoded hle hfuel; omega
  | succ fuel ih =>
    intro target st fts decoded hle hfuel
    obtain ⟨c, hc⟩ := List.length_eq_one.mp (H1 target st)
    obtain ⟨vec, hvec⟩ := Option.isSome_iff_exists.mp (H2 target st)
    rw [hc] at hvec
    rw [decodeLoop_succ]
    simp only [hc, hvec]
    by_cases hstop : ([c] : List Char) = ['#'] ∨ (decoded ++ [c]).length > 13
    · rw [if_pos hstop]
      refine ⟨fts ++ [(cfg.decoder target st).1], decoded ++ [c], rfl, ?_, ?_, ?_, c, ?_, ?_⟩
      · simp; omega
      · simp
      · simp; omega
      · exact List.getLast?_concat _
      · intro hcne
        rcases hstop with h | h
        · exact absurd (List.cons.injEq .. ▸ h) (by simpa using hcne)
        · simp at h ⊢; omega
    · rw [if_neg hstop]
      push_neg at hstop
      have hlen' : (decoded ++ [c]).length ≤ 13 := hstop.2
      obtain ⟨fts2, d, heq, h14, hgrow, hcount, c', hlast, hc'⟩ :=
        ih vec ((cfg.decoder target st).2) (fts ++ [(cfg.decoder target st).1])
          (decoded ++ [c]) hlen' (by simp at hlen' ⊢; omega)
      refine ⟨fts2, d, heq, h14, ?_, ?_, c', hlast, hc'⟩
      · simp at hgrow; omega
      · simp at hcount; omega

end Wickel

namespace Wickel

/-- C3: when every phone the run can sample is a single character that is a
key of the `lookup` table (as the repository's data tables provide) and the
start symbol `'#'` is in `lookup`, the greedy decoding loop terminates: fuel
14 suffices, at most 14 iterations run (one recorded `fts` entry and one
appended phone each), and the returned verb has at most 13 characters. -/
theorem decode_sequence_terminates {ι St : Type} (cfg : DecodeCfg St)
    (encoder : ι → St) (input_seq : ι)
    (H1 : ∀ t s, (samplePhone cfg ((cfg.decoder t s).1)).length = 1)
    (H2 : ∀ t s, (dictGet cfg.lookup (samplePhone cfg ((cfg.decoder t s).1))).isSome)
    (H3 : (dictGet cfg.lookup ['#']).isSome) :
    ∃ fts verb, decode_sequence cfg encoder 14 input_seq = some (fts, verb) ∧
      fts.length ≤ 14 ∧ verb.length ≤ 13 := by
  obtain ⟨start, hstart⟩ := Option.isSome_iff_exists.mp H3
  obtain ⟨fts2, d, heq, h14, hpos, hcount, -⟩ :=
    decodeLoop_term cfg H1 H2 14 start (encoder input_seq) [] []
      (by simp) (by simp)
  refine ⟨fts2, d.dropLast, ?_, ?_, ?_⟩
  · unfold decode_sequence
    rw [hstart]
    dsimp only
    rw [heq]
    rfl
  · simp at hcount; omega
  · rw [List.length_dropLast]; omega

/-- Witness configuration for the decoding theorems: a constant decoder whose
output is at squared distance 0 from the stored array of the stop phone
`'#'`, so the loop samples `'#'` immediately. -/
def cfgW : DecodeCfg Unit :=
  { phone_arrays := [(['#'], List.replicate 21 (1 : ℚ))],
    lookup := [(['#'], List.replicate 21 (1 : ℚ))],
    decoder := fun _ _ => (List.replicate 21 (1 : ℚ), ()),
    omega := List.replicate 21 1,
    renormalize := false }

/-- Witness for C3: on `cfgW`, every sampled phone is the single character
`'#'`, a key of `lookup`, and the decode terminates within the bounds. -/
theorem decode_sequence_terminates_witness :
    (∀ t s, (samplePhone cfgW ((cfgW.decoder t s).1)).length = 1) ∧
    (∀ t s, (dictGet cfgW.lookup (samplePhone cfgW ((cfgW.decoder t s).1))).isSome) ∧
    (dictGet cfgW.lookup ['#']).isSome ∧
    ∃ fts verb, decode_sequence cfgW (fun _ => ()) 14 () = some (fts, verb) ∧
      fts.length ≤ 14 ∧ verb.length ≤ 13 :=
  ⟨by intro t s
      norm_num [cfgW, samplePhone, find_closest_array, fcaLoop, sqDist,
        List.zipWith_replicate, List.sum_replicate],
    by intro t s
       norm_num [cfgW, samplePhone, find_closest_array, fcaLoop, sqDist,
         List.zipWith_replicate, List.sum_replicate, dictGet],
    by norm_num [cfgW, dictGet],
    decode_sequence_terminates cfgW (fun _ => ()) ()
      (by intro t s
          norm_num [cfgW, samplePhone, find_closest_array, fcaLoop, sqDist,
            List.zipWith_replicate, List.sum_replicate])
      (by intro t s
          norm_num [cfgW, samplePhone, find_closest_array, fcaLoop, sqDist,
            List.zipWith_replicate, List.sum_replicate, dictGet])
      (by norm_num [cfgW, dictGet])⟩

/-- C10: under the same table assumptions, `decode_sequence` always returns
the loop's decoded string with its final character removed: the loop produces
`verb ++ [c]` and the function returns `verb`; and when the dropped character
`c` is not the stop symbol `'#'` (the loop stopped through the 13-character
limit), a real sampled phone is dropped and the returned verb has exactly 13
characters. -/
theorem decode_sequence_drops_last {ι St : Type} (cfg : DecodeCfg St)
    (encoder : ι → St) (input_seq : ι)
    (H1 : ∀ t s, (samplePhone cfg ((cfg.decoder t s).1)).length = 1)
    (H2 : ∀ t s, (dictGet cfg.lookup (samplePhone cfg ((cfg.decoder t s).1))).isSome)
    (H3 : (dictGet cfg.lookup ['#']).isSome) :
    ∃ start fts d c, dictGet cfg.lookup ['#'] = some start ∧
      decodeLoop cfg 14 start (encoder input_seq) [] [] = some (fts, d) ∧
      decode_sequence cfg encoder 14 input_seq = some (fts, d.dropLast) ∧
      d = d.dropLast ++ [c] ∧
      (c ≠ '#' → d.dropLast.length = 13) := by
  obtain ⟨start, hstart⟩ := Option.isSome_iff_exists.mp H3
  obtain ⟨fts2, d, heq, h14, hpos, -, c, hlast, hc⟩ :=
    decodeLoop_term cfg H1 H2 14 start (encoder input_seq) [] []
      (by simp) (by simp)
  have hne : d ≠ [] := by intro h; rw [h] at hpos; simp at hpos
  have hgl : d.getLast hne = c := by
    rw [List.getLast?_eq_getLast d hne] at hlast
    exact Option.some.inj hlast
  refine ⟨start, fts2, d, c, hstart, heq, ?_, ?_, ?_⟩
  · unfold decode_sequence
    rw [hstart]
    dsimp only
    rw [heq]
    rfl
  · rw [← hgl]
    exact (List.dropLast_append_getLast hne).symm
  · intro hcne
    rw [List.length_dropLast, hc hcne]

/-- Witness for C10: the same immediate-stop configuration `cfgW`. -/
theorem decode_sequence_drops_last_witness :
    (∀ t s, (samplePhone cfgW ((cfgW.decoder t s).1)).length = 1) ∧
    (∀ t s, (dictGet cfgW.lookup (samplePhone cfgW ((cfgW.decoder t s).1))).isSome) ∧
    (dictGet cfgW.lookup ['#']).isSome ∧
    ∃ start fts d c, dictGet cfgW.lookup ['#'] = some start ∧
      decodeLoop cfgW 14 start ((fun _ => ()) ()) [] [] = some (fts, d) ∧
      decode_sequence cfgW (fun _ => ()) 14 () = some (fts, d.dropLast) ∧
      d = d.dropLast ++ [c] ∧
      (c ≠ '#' → d.dropLast.length = 13) :=
  ⟨by intro t s
      norm_num [cfgW, samplePhone, find_closest_array, fcaLoop, sqDist,
        List.zipWith_replicate, List.sum_replicate],
    by intro t s
       norm_num [cfgW, samplePhone, find_closest_array, fcaLoop, sqDist,
         List.zipWith_replicate, List.sum_replicate, dictGet],
    by norm_num [cfgW, dictGet],
    decode_sequence_drops_last cfgW (fun _ => ()) ()
      (by intro t s
          norm_num [cfgW, samplePhone, find_closest_array, fcaLoop, sqDist,
            List.zipWith_replicate, List.sum_replicate])
      (by intro t s
          norm_num [cfgW, samplePhone, find_closest_array, fcaLoop, sqDist,
            List.zipWith_replicate, List.sum_replicate, dictGet])
      (by norm_num [cfgW, dictGet])⟩

end Wickel

namespace Wickel

/-- A successful fallible traversal has one result per element, in order. -/
theorem optList_get {α β : Type} (f : α → Option β) :
    ∀ (l : List α) (m : List β), optList f l = some m →
      m.length = l.length ∧ ∀ i : Fin l.length, f (l.get i) = m[(i : ℕ)]? := by
  intro l
  induction l with
  | nil =>
    intro m h
    obtain rfl : ([] : List β) = m := Option.some.inj h
    exact ⟨rfl, fun i => absurd i.2 (by simp)⟩
  | cons a rest ih =>
    intro m h
    unfold optList at h
    cases hf : f a <;> rw [hf] at h
    · simp at h
    · cases hr : optList f rest <;> rw [hr] at h
      · simp at h
      · obtain rfl := Option.some.inj h
        obtain ⟨hlen, hrows⟩ := ih _ hr
        refine ⟨by simp [hlen], ?_⟩
        intro i
        rcases Fin.eq_zero_or_eq_succ i with hi | ⟨i', hi⟩
        · subst hi; simpa using hf
        · subst hi; simpa using hrows i'

/-- C9: whatever a batched `decode_sequences` call returns is exactly the
result of applying `decode_sequence` to each sequence of the batch
individually — same encoder, decoder, omega and renormalize — in batch
order: the `i`-th feature list and the `i`-th verb of the batch result are
the two components `decode_sequence` returns on the `i`-th sequence. -/
theorem decode_sequences_batch {ι St : Type} (cfg : DecodeCfg St)
    (encoder : ι → St) (fuel : ℕ) (seq : List ι)
    (ftsList : List (List (List ℚ))) (verbs : List (List Char))
    (h : decode_sequences cfg encoder fuel seq = some (ftsList, verbs)) :
    ftsList.length = seq.length ∧ verbs.length = seq.length ∧
    ∀ i : Fin seq.length, ∃ f v,
      decode_sequence cfg encoder fuel (seq.get i) = some (f, v) ∧
      ftsList[(i : ℕ)]? = some f ∧ verbs[(i : ℕ)]? = some v := by
  unfold decode_sequences at h
  cases hr : optList (decode_sequence cfg encoder fuel) seq <;> rw [hr] at h
  · simp at h
  case some rs =>
    obtain ⟨hl, hget⟩ := optList_get _ _ _ hr
    rw [Option.map_some'] at h
    have hpair := Option.some.inj h
    have h1 : rs.map Prod.fst = ftsList := congrArg Prod.fst hpair
    have h2 : rs.map Prod.snd = verbs := congrArg Prod.snd hpair
    subst h1
    subst h2
    refine ⟨by simp [hl], by simp [hl], ?_⟩
    intro i
    have hi' : (i : ℕ) < rs.length := by rw [hl]; exact i.2
    refine ⟨(rs.get ⟨i, hi'⟩).1, (rs.get ⟨i, hi'⟩).2, ?_, ?_, ?_⟩
    · rw [hget i, List.getElem?_eq_getElem hi']
      rfl
    · rw [List.getElem?_map, List.getElem?_eq_getElem hi']
      rfl
    · rw [List.getElem?_map, List.getElem?_eq_getElem hi']
      rfl

/-- Witness for C9: a one-element batch on the immediate-stop configuration;
the batch result holds exactly the single sequence's decode. -/
theorem decode_sequences_batch_witness :
    (decode_sequences cfgW (fun _ => ()) 14 [()] =
        some ([[List.replicate 21 (1 : ℚ)]], [[]])) ∧
    ([[List.replicate 21 (1 : ℚ)]].length = [()].length ∧
      ([[]] : List (List Char)).length = [()].length ∧
      ∀ i : Fin ([()] : List Unit).length, ∃ f v,
        decode_sequence cfgW (fun _ => ()) 14 (([()] : List Unit).get i) = some (f, v) ∧
        [[List.replicate 21 (1 : ℚ)]][(i : ℕ)]? = some f ∧
        ([[]] : List (List Char))[(i : ℕ)]? = some v) :=
  ⟨by norm_num [decode_sequences, decode_sequence, decodeLoop, optList, dictGet, cfgW,
      samplePhone, find_closest_array, fcaLoop, sqDist, divVec,
      List.zipWith_replicate, List.sum_replicate],
    decode_sequences_batch cfgW (fun _ => ()) 14 [()] _ _
      (by norm_num [decode_sequences, decode_sequence, decodeLoop, optList, dictGet, cfgW,
        samplePhone, find_closest_array, fcaLoop, sqDist, divVec,
        List.zipWith_replicate, List.sum_replicate])⟩

end Wickel

namespace Wickel

/-- Source `utility.load_data`, over the parsed csv rows (the code reads columns 1
and 3 of each row) and the coding function `cf.coding` of the companion
`coding_function` module, an opaque parameter here. The arrays `X`, `Y` are
the coded columns; when `verbose` is true the code additionally prints the
number of unique verbs and the dataset length, which leaves the returned
pair untouched. -/
def load_data (rows : List (List String)) (coding : String → List ℚ)
    (verbose : Bool) : List (List ℚ) × List (List ℚ) :=
  let phoneticinf := rows.map (fun r => r.getD 1 "")
  let phoneticI := rows.map (fun r => r.getD 3 "")
  let vec_inf := phoneticinf.map coding
  let vec_I := phoneticI.map coding
  let X := vec_inf
  let Y := vec_I
  if verbose = false then (X, Y) else (X, Y)

/-- C8: `load_data` returns the same pair `(X, Y)` whether `verbose` is true
or false, for every csv content and every coding function; the flag changes
only what is printed. -/
theorem load_data_verbose_independent (rows : List (List String))
    (coding : String → List ℚ) :
    load_data rows coding true = load_data rows coding false := rfl

end Wickel

namespace Wickel

/-- Modelled from the sklearn contract: the sorted list of the distinct class
labels (`np.unique`). -/
def uniqueSorted (ys : List ℕ) : List ℕ := ys.dedup.mergeSort (· ≤ ·)

/-- Modelled from the sklearn contract: labels re-encoded as indices into the
sorted unique labels (`np.unique(..., return_inverse=True)`). -/
def y_inversed (classes : List ℕ) : List ℕ :=
  classes.map (fun c => (uniqueSorted classes).indexOf c)

/-- Modelled from the sklearn contract: the encoded labels in ascending order
(`np.sort(y_encoded)`). -/
def y_order (classes : List ℕ) : List ℕ := (y_inversed classes).mergeSort (· ≤ ·)

/-- The numpy slice `l[i::n]`: every `n`-th element starting at `i`. -/
def strided {α : Type} (l : List α) (i n : ℕ) : List α :=
  (l.enum.filter (fun p => p.1 % n = i)).map (fun p => p.2)

/-- Modelled from the sklearn contract (`StratifiedKFold._make_test_folds`):
`allocation[i][k] = np.bincount(y_order[i::n])[k]`, how many samples of class
`k` fold `i` receives. -/
def allocation (classes : List ℕ) (n i k : ℕ) : ℕ :=
  (strided (y_order classes) i n).count k

/-- Modelled from the sklearn contract:
`np.arange(n_splits).repeat(allocation[:, k])`, the fold ids handed to the
class-`k` samples in position order. -/
def folds_for_class (classes : List ℕ) (n k : ℕ) : List ℕ :=
  (List.range n).bind (fun i => List.replicate (allocation classes n i k) i)

/-- Modelled from the sklearn contract: the fold id of every sample —
position `p` of class `k` receives the entry of `folds_for_class` at `p`'s
rank among the class-`k` positions (`test_folds[y_encoded == k] =
folds_for_class`). -/
def test_folds (classes : List ℕ) (n : ℕ) : List ℕ :=
  (List.range classes.length).map (fun p =>
    let k := (y_inversed classes).getD p 0
    (folds_for_class classes n k).getD (((y_inversed classes).take p).count k) 0)

/-- Test indices of fold `k`: the positions whose fold id is `k`, ascending
(the `i_test` array that `cv.split` yields). -/
def testIdx (classes : List ℕ) (n k : ℕ) : List ℕ :=
  (List.range classes.length).filter (fun p => (test_folds classes n).getD p 0 = k)

/-- Train indices of fold `k`: all other positions, ascending (`i_train`). -/
def trainIdx (classes : List ℕ) (n k : ℕ) : List ℕ :=
  (List.range classes.length).filter (fun p => (test_folds classes n).getD p 0 ≠ k)

/-- Source `lib.kfold`: stratified `n`-fold cross-validation over the corpus. The
class column drives the fold assignment; for every fold, a fresh model is
trained (`train(corpus_train, epochs=300)`) on the train rows and its decoder
is applied to the held-out rows (`decoder(corpus_test, renormalize=renorm)`);
the per-fold decodings are concatenated in fold order
(`all_decodings.append(decoded)`). The keras training and decoding are the
opaque parameters `train` and `decode`. -/
def kfold {R M O : Type} (cls : R → ℕ) (train : List R → M)
    (decode : M → List R → List O) (corpus : List R) (n : ℕ) : List O :=
  (List.range n).bind (fun k =>
    let tr := (trainIdx (corpus.map cls) n k).filterMap (fun p => corpus[p]?)
    let te := (testIdx (corpus.map cls) n k).filterMap (fun p => corpus[p]?)
    decode (train tr) te)

end Wickel

namespace Wickel

/-- Every fold id `test_folds` assigns is a legal fold number. -/
theorem test_folds_lt (classes : List ℕ) (n : ℕ) (hn : 0 < n) :
    ∀ p : ℕ, (test_folds classes n).getD p 0 < n := by
  intro p
  rw [List.getD_eq_getElem?_getD]
  cases hx : (test_folds classes n)[p]? with
  | none => simpa using hn
  | some x =>
    have hmem : x ∈ test_folds classes n := List.getElem?_mem hx
    simp only [Option.getD_some]
    unfold test_folds at hmem
    obtain ⟨q, -, hq⟩ := List.mem_map.mp hmem
    rw [List.getD_eq_getElem?_getD] at hq
    cases hf : (folds_for_class classes n ((y_inversed classes).getD q 0))[
        ((y_inversed classes).take q).count ((y_inversed classes).getD q 0)]? with
    | none => rw [hf] at hq; simp at hq; omega
    | some i =>
      rw [hf] at hq
      simp only [Option.getD_some] at hq
      subst hq
      have : i ∈ folds_for_class classes n ((y_inversed classes).getD q 0) :=
        List.getElem?_mem hf
      unfold folds_for_class at this
      obtain ⟨j, hj, hrep⟩ := List.mem_bind.mp this
      rw [List.eq_of_mem_replicate hrep]
      exact List.mem_range.mp hj

/-- C7: `kfold` concatenates, in fold order, the decodings that the
fold-specific freshly trained model produces on the fold's held-out rows,
the folds coming from the stratified splitter on the class column; and every
corpus position lies in the test portion of exactly one of the `n` folds. -/
theorem kfold_cross_validation {R M O : Type} (cls : R → ℕ) (train : List R → M)
    (decode : M → List R → List O) (corpus : List R) (n : ℕ) (hn : 0 < n) :
    kfold cls train decode corpus n =
      (List.range n).bind (fun k =>
        decode (train ((trainIdx (corpus.map cls) n k).filterMap (fun p => corpus[p]?)))
          ((testIdx (corpus.map cls) n k).filterMap (fun p => corpus[p]?))) ∧
    ∀ p, p < corpus.length → ∃! k, k < n ∧ p ∈ testIdx (corpus.map cls) n k := by
  refine ⟨rfl, ?_⟩
  intro p hp
  have hp' : p < (corpus.map cls).length := by simpa using hp
  refine ⟨(test_folds (corpus.map cls) n).getD p 0, ⟨test_folds_lt _ n hn p, ?_⟩, ?_⟩
  · unfold testIdx
    rw [List.mem_filter]
    exact ⟨List.mem_range.mpr hp', by simp⟩
  · intro k hk
    obtain ⟨-, hmem⟩ := hk
    unfold testIdx at hmem
    rw [List.mem_filter] at hmem
    have h2 : (test_folds (corpus.map cls) n).getD p 0 = k := by simpa using hmem.2
    exact h2.symm

/-- Witness for C7: a four-row corpus with two classes, split in two folds;
identity "training" and a decoder returning the held-out rows. -/
theorem kfold_cross_validation_witness :
    0 < 2 ∧
    (kfold (fun r : ℕ => r % 2) (fun l => l) (fun m te => m ++ te) [10, 11, 12, 13] 2 =
      (List.range 2).bind (fun k =>
        (fun (m : List ℕ) te => m ++ te)
          ((fun l => l) ((trainIdx ([10, 11, 12, 13].map (fun r => r % 2)) 2 k).filterMap
            (fun p => [10, 11, 12, 13][p]?)))
          ((testIdx ([10, 11, 12, 13].map (fun r => r % 2)) 2 k).filterMap
            (fun p => [10, 11, 12, 13][p]?))) ∧
      ∀ p, p < ([10, 11, 12, 13] : List ℕ).length →
        ∃! k, k < 2 ∧ p ∈ testIdx ([10, 11, 12, 13].map (fun r => r % 2)) 2 k) :=
  ⟨by decide,
    kfold_cross_validation (fun r : ℕ => r % 2) (fun l => l) (fun m te => m ++ te)
      [10, 11, 12, 13] 2 (by decide)⟩

end Wickel
